import Mathlib

/-!
Verification of the Entangld shared-memory qubit system (src/qubit.cpp).

The C++ program stores a `QubitState` record in a named shared-memory
segment.  We embed the record and every state-affecting operation as pure
Lean functions, parametrised by the amplitude field `K` (the program's
`double`; the claim theorems instantiate `K := ℝ`).  The `math.h`
constant `M_SQRT2` is an explicit parameter `sqrt2 : K` of the operations
that use it.  Randomness (the `std::bernoulli_distribution` draw) is
abstracted as an oracle `coin : K → Bool` that receives the success
probability the code passes to the distribution; the current time
(`nowMs()`) is an explicit `ℕ` argument; the namespace of other
shared-memory segments is an environment `Env : String → Option QubitState`
(a name that cannot be opened maps to `none`).
-/

namespace Entangld

/-- The modulus `2^64` of the C++ `uint64_t` fields. -/
def UINT64_MOD : ℕ := 2 ^ 64

/-- Wrap-around `uint64_t` subtraction `a - b` (wrap-around modular arithmetic), used by
the decoherence guard `nowMs() - state->created_at`. -/
def sub64 (a b : ℕ) : ℕ := (a % UINT64_MOD + (UINT64_MOD - b % UINT64_MOD)) % UINT64_MOD

/-- The shared-memory record `QubitState` of src/qubit.cpp.  Amplitude
components live in the field `K`; `measured` is the `uint8_t` tri-state
flag (2 = superposed, 0/1 = collapsed outcome); the fixed
`char links[4][64]` table together with `link_count` is modelled as the
list of the `link_count` stored names. -/
structure QubitState (K : Type) where
  alpha_real : K
  alpha_imag : K
  beta_real : K
  beta_imag : K
  measured : ℕ
  links : List String
  task_id : ℕ
  created_at : ℕ
  decohere_timeout_ms : ℕ
deriving DecidableEq

/-- The process-local `Qubit` handle: the constructor arguments that the
C++ object keeps outside the shared record (`shm_name`, `task_id`,
`decohere_timeout`). -/
structure Qubit where
  shm_name : String
  task_id : ℕ
  decohere_timeout : ℕ

/-- The namespace of named shared-memory segments: `none` means the name
cannot be opened (`shm_open` without `O_CREAT` fails). -/
def Env (K : Type) : Type := String → Option (QubitState K)

/-- Point update of the environment. -/
def setEnv {K : Type} (e : Env K) (n : String) (q : QubitState K) : Env K :=
  fun m => if m = n then some q else e m

section Ops

variable {K : Type} [Field K]

/-- The helper `Qubit::norm`: `r*r + i*i`. -/
def normSq (r i : K) : K := r * r + i * i

/-- One draw of `std::bernoulli_distribution dist(p1); dist(rng)` converted
to the `uint8_t` result, with the process-local generator abstracted as the
oracle `coin` applied to the success probability `p1`. -/
def bernoulliSample (coin : K → Bool) (p1 : K) : ℕ :=
  if coin p1 then 1 else 0

/-- The helper `Qubit::updateTimestamp`: writes `nowMs()` into `created_at` and the
instance's configured timeout into `decohere_timeout_ms`. -/
def updateTimestamp (now : ℕ) (q : Qubit) (s : QubitState K) : QubitState K :=
  { s with created_at := now % UINT64_MOD,
           decohere_timeout_ms := q.decohere_timeout % UINT64_MOD }

/-- The amplitude forcing performed by `Qubit::measure` after the draw:
`(1,0,0,0)` for outcome 0, `(0,0,1,0)` for outcome 1, together with the
`state->measured = result` store. -/
def collapseAmps (result : ℕ) (s : QubitState K) : QubitState K :=
  if result = 0 then
    { s with measured := result,
             alpha_real := 1, alpha_imag := 0, beta_real := 0, beta_imag := 0 }
  else
    { s with measured := result,
             alpha_real := 0, alpha_imag := 0, beta_real := 1, beta_imag := 0 }

/-- Truncation by `strncpy(links[i], peer, 63)`: a stored link name holds at most 63
characters of the given peer name. -/
def truncName (p : String) : String := ⟨p.data.take 63⟩

/-- The member `Qubit::propagateToLinks`: for each stored peer name in order, open the
peer's segment (skip the peer when it cannot be opened), store `result`
into its `measured` field and unmap.  Only the directly linked peers are
touched; nothing is re-derived from a peer's own amplitudes. -/
def propagateToLinks (result : ℕ) (links : List String) (e : Env K) : Env K :=
  List.foldl
    (fun acc peer =>
      match acc peer with
      | none => acc
      | some ps => setEnv acc peer { ps with measured := result })
    e links

/-- The member `Qubit::initSuperposition`: equal superposition `1/M_SQRT2` amplitudes,
`measured = 2`, links cleared, timestamp updated. -/
def initSuperposition (sqrt2 : K) (now : ℕ) (q : Qubit) (s : QubitState K) :
    QubitState K :=
  updateTimestamp now q
    { s with alpha_real := 1 / sqrt2, alpha_imag := 0,
             beta_real := 1 / sqrt2, beta_imag := 0,
             measured := 2, links := [] }

/-- The member `Qubit::measure`: if already collapsed return the stored outcome and
change nothing; otherwise draw `Bernoulli(p1)` with `p1 = |amplitude1|²`,
store the outcome, force the amplitudes, propagate to the stored peers and
update the timestamp.  Returns (result, new record, new environment). -/
def qmeasure (coin : K → Bool) (now : ℕ) (q : Qubit) (s : QubitState K) (e : Env K) :
    ℕ × QubitState K × Env K :=
  if s.measured ≠ 2 then (s.measured, s, e)
  else
    let p1 := normSq s.beta_real s.beta_imag
    let result := bernoulliSample coin p1
    let s1 := collapseAmps result s
    let e1 := propagateToLinks result s1.links e
    (result, updateTimestamp now q s1, e1)

/-- The amplitude transformation of `Qubit::applyGate`'s `switch`:
H, X and Z as written in the source; any other symbol only logs
`Unknown gate` and leaves the record untouched. -/
def gateTransform (sqrt2 : K) (gate : Char) (s : QubitState K) : QubitState K :=
  match gate with
  | 'H' => { s with alpha_real := (s.alpha_real + s.beta_real) / sqrt2,
                    alpha_imag := (s.alpha_imag + s.beta_imag) / sqrt2,
                    beta_real := (s.alpha_real - s.beta_real) / sqrt2,
                    beta_imag := (s.alpha_imag - s.beta_imag) / sqrt2 }
  | 'X' => { s with alpha_real := s.beta_real, alpha_imag := s.beta_imag,
                    beta_real := s.alpha_real, beta_imag := s.alpha_imag }
  | 'Z' => { s with beta_real := -s.beta_real, beta_imag := -s.beta_imag }
  | _ => s

/-- The member `Qubit::applyGate`: early return when already collapsed; otherwise the
switch on the gate symbol followed unconditionally by `updateTimestamp`
(also in the unknown-gate `default` branch). -/
def applyGate (sqrt2 : K) (gate : Char) (now : ℕ) (q : Qubit) (s : QubitState K) :
    QubitState K :=
  if s.measured ≠ 2 then s
  else updateTimestamp now q (gateTransform sqrt2 gate s)

/-- The member `Qubit::entangle`: copies the first `min(|peers|, 4)` names (each
truncated by `strncpy` to 63 characters) into the link table and sets
`link_count`; nothing else is touched and no timestamp update occurs. -/
def entangle (peers : List String) (s : QubitState K) : QubitState K :=
  { s with links := (peers.take 4).map truncName }

/-- The member `Qubit::setState`: overwrite the four amplitude components, reset
`measured` to 2 (superposed) unconditionally, update the timestamp. -/
def setState (ar ai br bi : K) (now : ℕ) (q : Qubit) (s : QubitState K) :
    QubitState K :=
  updateTimestamp now q
    { s with alpha_real := ar, alpha_imag := ai, beta_real := br, beta_imag := bi,
             measured := 2 }

/-- One tick of the loop body in `Qubit::startDecoherenceThread` at time
`now`: when still superposed and `nowMs() - created_at` (uint64 arithmetic)
exceeds `decohere_timeout_ms`, draw `Bernoulli(|amplitude1|²)`, store the
outcome into `measured` and propagate it; the amplitudes and the timestamp
are not touched.  Otherwise the tick does nothing. -/
def decohereTick (coin : K → Bool) (now : ℕ) (s : QubitState K) (e : Env K) :
    QubitState K × Env K :=
  if s.measured = 2 ∧ sub64 now s.created_at > s.decohere_timeout_ms then
    let p1 := normSq s.beta_real s.beta_imag
    let result := bernoulliSample coin p1
    let s1 := { s with measured := result }
    (s1, propagateToLinks result s1.links e)
  else (s, e)

/-- The `formGHZGroup` peer list for member `i`: the names of all the other
members in order (the C++ inner loop over `j ≠ i`). -/
def ghzPeers (names : List String) (i : ℕ) : List String :=
  names.eraseIdx i

/-- The free function `formGHZGroup`: rejects a group size outside [2,5] (logs
`InvalidGroupSize`, mutates nothing); otherwise entangles each member with
the names of all the others and resets it to the equal superposition via
`setState(1/M_SQRT2, 0, 1/M_SQRT2, 0)`. -/
def formGHZGroup (sqrt2 : K) (now : ℕ) (qs : List (Qubit × QubitState K)) :
    List (Qubit × QubitState K) :=
  if qs.length < 2 ∨ 5 < qs.length then qs
  else
    let names := qs.map (fun r => r.1.shm_name)
    qs.enum.map (fun p =>
      (p.2.1,
       setState (1 / sqrt2) 0 (1 / sqrt2) 0 now p.2.1
         (entangle (ghzPeers names p.1) p.2.2)))

/-- The spec's frozen-amplitude invariant (§3): a collapsed record carries
the deterministic collapsed amplitudes `(1,0)` or `(0,1)`. -/
def collapseInvariant (s : QubitState K) : Prop :=
  s.measured ≠ 2 →
    (s.measured = 0 ∧ s.alpha_real = 1 ∧ s.alpha_imag = 0 ∧
       s.beta_real = 0 ∧ s.beta_imag = 0) ∨
    (s.measured = 1 ∧ s.alpha_real = 0 ∧ s.alpha_imag = 0 ∧
       s.beta_real = 1 ∧ s.beta_imag = 0)

end Ops

/-- A concrete superposed record over ℚ (amplitudes `(0,0,1,0)`) for
witnesses and counterexamples that do not involve `M_SQRT2`. -/
def sSupQ : QubitState ℚ :=
  { alpha_real := 0, alpha_imag := 0, beta_real := 1, beta_imag := 0,
    measured := 2, links := [], task_id := 1,
    created_at := 0, decohere_timeout_ms := 5 }

/-- A concrete collapsed record (outcome 0) over ℚ for witnesses. -/
def sCollQ : QubitState ℚ :=
  { alpha_real := 1, alpha_imag := 0, beta_real := 0, beta_imag := 0,
    measured := 0, links := [], task_id := 1,
    created_at := 0, decohere_timeout_ms := 5 }

/-- A concrete handle for witnesses. -/
def qHandle : Qubit := { shm_name := "a", task_id := 1, decohere_timeout := 5 }

/-- A normalized superposed record with amplitudes `(3/5, 0, 4/5, 0)`:
`p0 = 9/25`, `p1 = 16/25`, so both Bernoulli outcomes are realizable
(`0 < p1 < 1`). -/
def sBell : QubitState ℚ :=
  { alpha_real := 3 / 5, alpha_imag := 0, beta_real := 4 / 5, beta_imag := 0,
    measured := 2, links := [], task_id := 1,
    created_at := 0, decohere_timeout_ms := 5 }

/-- The empty environment: no peer segment can be opened. -/
def env0 (K : Type) : Env K := fun _ => none

/-- A coin oracle that always answers `false` (outcome 0). -/
def coin0 (K : Type) : K → Bool := fun _ => false

/-- The four amplitude components of a record, as a tuple. -/
def amps {K : Type} (s : QubitState K) : K × K × K × K :=
  (s.alpha_real, s.alpha_imag, s.beta_real, s.beta_imag)

/-- An environment holding exactly one openable peer, named `"b"`. -/
def envB : Env ℚ := fun m => if m = "b" then some sSupQ else none

/-- The pure-`|0⟩` record `(1,0,0,0)` over any field, superposed, used for
the fixed-input gate checks. -/
def sPure0 (K : Type) [Field K] : QubitState K :=
  { alpha_real := 1, alpha_imag := 0, beta_real := 0, beta_imag := 0,
    measured := 2, links := [], task_id := 1,
    created_at := 0, decohere_timeout_ms := 5 }

/-- The pure-`|1⟩` record `(0,0,1,0)` over any field, superposed. -/
def sPure1 (K : Type) [Field K] : QubitState K :=
  { alpha_real := 0, alpha_imag := 0, beta_real := 1, beta_imag := 0,
    measured := 2, links := [], task_id := 1,
    created_at := 0, decohere_timeout_ms := 5 }

/-- Pointwise characterisation of `propagateToLinks`: a name in the link
list that can be opened gets its `measured` field overwritten with the
outcome; an unopenable name stays unopenable; any other name is untouched. -/
theorem propagate_char {K : Type} (result : ℕ) (links : List String) (e : Env K)
    (name : String) :
    propagateToLinks result links e name =
      if name ∈ links then
        (e name).map (fun ps => { ps with measured := result })
      else e name := by
  induction links generalizing e with
  | nil => simp [propagateToLinks]
  | cons peer rest ih =>
    have hstep :
        propagateToLinks result (peer :: rest) e =
          propagateToLinks result rest
            (match e peer with
             | none => e
             | some ps => setEnv e peer { ps with measured := result }) := rfl
    rw [hstep, ih]
    have hpt :
        (match e peer with
         | none => e
         | some ps => setEnv e peer { ps with measured := result }) name =
          if name = peer then
            (e name).map (fun ps => { ps with measured := result })
          else e name := by
      cases hep : e peer with
      | none =>
        by_cases hnp : name = peer
        · subst hnp; simp [hep]
        · simp [hnp]
      | some ps =>
        by_cases hnp : name = peer
        · subst hnp; simp [setEnv, hep]
        · simp [setEnv, hnp]
    rw [hpt]
    by_cases hmem : name ∈ rest
    · by_cases hnp : name = peer
      · subst hnp
        simp only [hmem, if_true, Option.map_map, List.mem_cons_self]
        congr 1
      · simp [hmem, hnp]
    · by_cases hnp : name = peer
      · subst hnp; simp [hmem]
      · simp [hmem, hnp]

/-- C4: measuring an already-collapsed register returns the stored outcome
and is a pure read: the record (in particular `created_at`) and the
environment of peer segments are both unchanged, so no propagation occurs. -/
theorem measure_collapsed_pure {K : Type} [Field K] (coin : K → Bool) (now : ℕ)
    (q : Qubit) (s : QubitState K) (e : Env K) (h : s.measured ≠ 2) :
    qmeasure coin now q s e = (s.measured, s, e) := by
  simp [qmeasure, h]

/-- Witness for `measure_collapsed_pure` at a concrete collapsed record. -/
theorem measure_collapsed_pure_witness :
    qmeasure (coin0 ℚ) 7 qHandle sCollQ (env0 ℚ) = (sCollQ.measured, sCollQ, env0 ℚ) :=
  measure_collapsed_pure (coin0 ℚ) 7 qHandle sCollQ (env0 ℚ) (by decide)

/-- C10: `setState` overwrites the four amplitude components with the
supplied values and unconditionally resets `measured` to 2 (superposed) —
also on a register that was already collapsed — while leaving the links
list unchanged (only the timestamp metadata is additionally rewritten). -/
theorem setState_overwrites {K : Type} [Field K] (ar ai br bi : K) (now : ℕ)
    (q : Qubit) (s : QubitState K) :
    (setState ar ai br bi now q s).alpha_real = ar ∧
    (setState ar ai br bi now q s).alpha_imag = ai ∧
    (setState ar ai br bi now q s).beta_real = br ∧
    (setState ar ai br bi now q s).beta_imag = bi ∧
    (setState ar ai br bi now q s).measured = 2 ∧
    (setState ar ai br bi now q s).links = s.links :=
  ⟨rfl, rfl, rfl, rfl, rfl, rfl⟩

/-- C8: `formGHZGroup` on a group whose size is outside [2,5] modifies no
register: the input list is returned exactly as given. -/
theorem formGHZGroup_rejects_size {K : Type} [Field K] (sqrt2 : K) (now : ℕ)
    (qs : List (Qubit × QubitState K)) (h : qs.length < 2 ∨ 5 < qs.length) :
    formGHZGroup sqrt2 now qs = qs := by
  simp [formGHZGroup, h]

/-- Witness for `formGHZGroup_rejects_size` at concrete groups of size 1
and of size 6. -/
theorem formGHZGroup_rejects_size_witness :
    formGHZGroup (0 : ℚ) 0 [(qHandle, sSupQ)] = [(qHandle, sSupQ)] ∧
    formGHZGroup (0 : ℚ) 0
        [(qHandle, sSupQ), (qHandle, sSupQ), (qHandle, sSupQ),
         (qHandle, sSupQ), (qHandle, sSupQ), (qHandle, sSupQ)] =
      [(qHandle, sSupQ), (qHandle, sSupQ), (qHandle, sSupQ),
       (qHandle, sSupQ), (qHandle, sSupQ), (qHandle, sSupQ)] :=
  ⟨formGHZGroup_rejects_size (0 : ℚ) 0 _ (Or.inl (by decide)),
   formGHZGroup_rejects_size (0 : ℚ) 0 _ (Or.inr (by decide))⟩

/-- C7: propagation is best-effort and one hop deep.  For the stored peer
list: a name outside the list is completely untouched (in particular the
peers of a notified peer are not themselves notified), a listed peer that
cannot be opened is skipped without affecting anything else, and a listed
openable peer has exactly its `measured` field forced to the outcome —
its amplitudes are not consulted and all its other fields survive. -/
theorem propagate_best_effort {K : Type} (result : ℕ) (links : List String)
    (e : Env K) :
    (∀ name, name ∉ links → propagateToLinks result links e name = e name) ∧
    (∀ name, name ∈ links → e name = none →
       propagateToLinks result links e name = none) ∧
    (∀ name ps, name ∈ links → e name = some ps →
       propagateToLinks result links e name = some { ps with measured := result }) := by
  refine ⟨fun name hn => ?_, fun name hn he => ?_, fun name ps hn he => ?_⟩
  · rw [propagate_char, if_neg hn]
  · rw [propagate_char, if_pos hn, he]; rfl
  · rw [propagate_char, if_pos hn, he]; rfl

/-- Witness for `propagate_best_effort`: a one-element link list whose
peer is openable gets its `measured` field forced to 1. -/
theorem propagate_best_effort_witness :
    propagateToLinks 1 ["b"] envB "b" = some { sSupQ with measured := 1 } :=
  (propagate_best_effort 1 ["b"] envB).2.2 "b" sSupQ (by decide) rfl

/-- C2: measuring a superposed register draws one Bernoulli sample whose
success probability is exactly `p1 = |amplitude1|²` as computed by
`Qubit::norm`, stores the sampled outcome (an element of {0,1}) in
`measured`, forces the amplitudes to the deterministic collapsed values,
updates `created_at`, propagates the outcome to the stored peers, and
returns the stored outcome. -/
theorem measure_superposed_spec {K : Type} [Field K] (coin : K → Bool) (now : ℕ)
    (q : Qubit) (s : QubitState K) (e : Env K) (hm : s.measured = 2) :
    (qmeasure coin now q s e).1 =
        bernoulliSample coin (normSq s.beta_real s.beta_imag) ∧
    ((qmeasure coin now q s e).1 = 0 ∨ (qmeasure coin now q s e).1 = 1) ∧
    (qmeasure coin now q s e).2.1.measured = (qmeasure coin now q s e).1 ∧
    amps (qmeasure coin now q s e).2.1 =
      (if (qmeasure coin now q s e).1 = 0 then ((1 : K), (0 : K), (0 : K), (0 : K))
       else ((0 : K), (0 : K), (1 : K), (0 : K))) ∧
    (qmeasure coin now q s e).2.1.created_at = now % UINT64_MOD ∧
    (qmeasure coin now q s e).2.2 =
      propagateToLinks (qmeasure coin now q s e).1 s.links e := by
  have hne : ¬s.measured ≠ 2 := by simp [hm]
  unfold qmeasure
  rw [if_neg hne]
  cases hc : coin (normSq s.beta_real s.beta_imag) <;>
    simp [bernoulliSample, collapseAmps, updateTimestamp, amps, hc]

/-- Witness for `measure_superposed_spec` at a concrete superposed
record. -/
theorem measure_superposed_spec_witness :
    (qmeasure (coin0 ℚ) 9 qHandle sSupQ (env0 ℚ)).1 =
        bernoulliSample (coin0 ℚ) (normSq sSupQ.beta_real sSupQ.beta_imag) ∧
    ((qmeasure (coin0 ℚ) 9 qHandle sSupQ (env0 ℚ)).1 = 0 ∨
       (qmeasure (coin0 ℚ) 9 qHandle sSupQ (env0 ℚ)).1 = 1) ∧
    (qmeasure (coin0 ℚ) 9 qHandle sSupQ (env0 ℚ)).2.1.measured =
        (qmeasure (coin0 ℚ) 9 qHandle sSupQ (env0 ℚ)).1 ∧
    amps (qmeasure (coin0 ℚ) 9 qHandle sSupQ (env0 ℚ)).2.1 =
      (if (qmeasure (coin0 ℚ) 9 qHandle sSupQ (env0 ℚ)).1 = 0 then
         ((1 : ℚ), (0 : ℚ), (0 : ℚ), (0 : ℚ))
       else ((0 : ℚ), (0 : ℚ), (1 : ℚ), (0 : ℚ))) ∧
    (qmeasure (coin0 ℚ) 9 qHandle sSupQ (env0 ℚ)).2.1.created_at = 9 % UINT64_MOD ∧
    (qmeasure (coin0 ℚ) 9 qHandle sSupQ (env0 ℚ)).2.2 =
      propagateToLinks (qmeasure (coin0 ℚ) 9 qHandle sSupQ (env0 ℚ)).1
        sSupQ.links (env0 ℚ) :=
  measure_superposed_spec (coin0 ℚ) 9 qHandle sSupQ (env0 ℚ) rfl

/-- C5 counterexample: on a superposed register, an unrecognized gate
symbol is NOT a complete no-op — `updateTimestamp` still runs in the
`default` branch of the switch, so `created_at` changes. -/
theorem unknown_gate_counterexample :
    (applyGate (0 : ℚ) 'Q' 5 qHandle sSupQ).created_at ≠ sSupQ.created_at := by
  decide

/-- C5 amended: for an unrecognized gate symbol on a superposed register,
the amplitudes, `measured` and `links` are unchanged but the timestamp
metadata is rewritten (`applyGate` equals a bare `updateTimestamp`); on a
collapsed register the call returns early and is a complete no-op. -/
theorem unknown_gate_amended {K : Type} [Field K] (sqrt2 : K) (gate : Char)
    (now : ℕ) (q : Qubit) (s : QubitState K)
    (hg : gate ≠ 'H' ∧ gate ≠ 'X' ∧ gate ≠ 'Z') :
    (s.measured = 2 → applyGate sqrt2 gate now q s = updateTimestamp now q s) ∧
    (s.measured ≠ 2 → applyGate sqrt2 gate now q s = s) := by
  have ht : gateTransform sqrt2 gate s = s := by
    unfold gateTransform
    split <;> simp_all
  refine ⟨fun hm => ?_, fun hm => ?_⟩
  · have hne : ¬s.measured ≠ 2 := by simp [hm]
    unfold applyGate
    rw [if_neg hne, ht]
  · unfold applyGate
    rw [if_pos hm]

/-- Witness for `unknown_gate_amended` at the concrete gate symbol Q on a
superposed and on a collapsed record. -/
theorem unknown_gate_amended_witness :
    applyGate (0 : ℚ) 'Q' 5 qHandle sSupQ = updateTimestamp 5 qHandle sSupQ ∧
    applyGate (0 : ℚ) 'Q' 5 qHandle sCollQ = sCollQ :=
  ⟨(unknown_gate_amended (0 : ℚ) 'Q' 5 qHandle sSupQ (by decide)).1 rfl,
   (unknown_gate_amended (0 : ℚ) 'Q' 5 qHandle sCollQ (by decide)).2 (by decide)⟩

/-- C3 counterexample: with the same random sample (outcome 0, realizable
since the start state has `p1 = 16/25` strictly between 0 and 1) and the
same start state, the record produced by a firing decoherence tick differs
from the record produced by `measure` — the tick neither forces the
amplitudes nor updates `created_at`. -/
theorem decohere_measure_counterexample :
    (decohereTick (coin0 ℚ) 10000 sBell (env0 ℚ)).1 ≠
      (qmeasure (coin0 ℚ) 10000 qHandle sBell (env0 ℚ)).2.1 := by
  intro h
  have hc : (0 : ℕ) = 10000 % UINT64_MOD := by
    calc (0 : ℕ)
        = (decohereTick (coin0 ℚ) 10000 sBell (env0 ℚ)).1.created_at := by
          unfold decohereTick
          split <;> rfl
      _ = (qmeasure (coin0 ℚ) 10000 qHandle sBell (env0 ℚ)).2.1.created_at := by
          rw [h]
      _ = 10000 % UINT64_MOD := by
          unfold qmeasure
          rw [if_neg (by decide)]
          rfl
  norm_num [UINT64_MOD] at hc

/-- C3 amended: when the decoherence monitor fires it samples from the same
Bernoulli distribution (success probability `|amplitude1|²`) as `measure`,
stores the same outcome in `measured`, and performs the identical
propagation to peers; unlike `measure` it leaves the amplitudes and
`created_at` unchanged. -/
theorem decohere_measure_amended {K : Type} [Field K] (coin : K → Bool)
    (now : ℕ) (q : Qubit) (s : QubitState K) (e : Env K) (hm : s.measured = 2)
    (hg : sub64 now s.created_at > s.decohere_timeout_ms) :
    (decohereTick coin now s e).1.measured = (qmeasure coin now q s e).1 ∧
    (qmeasure coin now q s e).1 =
        bernoulliSample coin (normSq s.beta_real s.beta_imag) ∧
    (decohereTick coin now s e).2 = (qmeasure coin now q s e).2.2 ∧
    amps (decohereTick coin now s e).1 = amps s ∧
    (decohereTick coin now s e).1.created_at = s.created_at := by
  have hne : ¬s.measured ≠ 2 := by simp [hm]
  have hcond : s.measured = 2 ∧ sub64 now s.created_at > s.decohere_timeout_ms :=
    ⟨hm, hg⟩
  unfold decohereTick qmeasure
  rw [if_pos hcond, if_neg hne]
  cases hc : coin (normSq s.beta_real s.beta_imag) <;>
    simp [bernoulliSample, collapseAmps, amps, hc]

/-- Witness for `decohere_measure_amended` at a concrete normalized
superposed record (`p1 = 16/25`) whose decoherence budget has elapsed. -/
theorem decohere_measure_amended_witness :
    (decohereTick (coin0 ℚ) 10000 sBell (env0 ℚ)).1.measured =
        (qmeasure (coin0 ℚ) 10000 qHandle sBell (env0 ℚ)).1 ∧
    (qmeasure (coin0 ℚ) 10000 qHandle sBell (env0 ℚ)).1 =
        bernoulliSample (coin0 ℚ) (normSq sBell.beta_real sBell.beta_imag) ∧
    (decohereTick (coin0 ℚ) 10000 sBell (env0 ℚ)).2 =
        (qmeasure (coin0 ℚ) 10000 qHandle sBell (env0 ℚ)).2.2 ∧
    amps (decohereTick (coin0 ℚ) 10000 sBell (env0 ℚ)).1 = amps sBell ∧
    (decohereTick (coin0 ℚ) 10000 sBell (env0 ℚ)).1.created_at = sBell.created_at :=
  decohere_measure_amended (coin0 ℚ) 10000 qHandle sBell (env0 ℚ) rfl (by decide)

/-- C1 counterexample: the frozen-amplitude invariant is not preserved by
the decoherence monitor — a normalized superposed record satisfying the
invariant, with `p1 = 16/25` so that the sampled outcome 0 is realizable,
is collapsed by a firing tick into a record whose amplitudes
`(3/5, 0, 4/5, 0)` are not the deterministic collapsed values. -/
theorem collapsedAmplitudes_counterexample :
    collapseInvariant sBell ∧
    ¬collapseInvariant (decohereTick (coin0 ℚ) 10000 sBell (env0 ℚ)).1 := by
  constructor
  · intro h
    exact absurd rfl h
  · intro h
    have hs : (decohereTick (coin0 ℚ) 10000 sBell (env0 ℚ)).1 =
        { sBell with measured := 0 } := by
      unfold decohereTick
      rw [if_pos (by decide)]
      rfl
    rw [hs] at h
    rcases h (by decide) with ⟨_, h1, _⟩ | ⟨h0, _⟩
    · norm_num [sBell] at h1
    · exact absurd h0 (by decide)

/-- C1 amended: `measure` does establish the frozen-amplitude invariant
when it collapses a superposed register, but a collapse forced by the
decoherence monitor and a collapse propagated from a peer change only
`measured` and leave the amplitudes exactly as they were, so the invariant
does not hold for every collapsed record of the system. -/
theorem collapsedAmplitudes_amended {K : Type} [Field K] (coin : K → Bool)
    (now : ℕ) (q : Qubit) (s : QubitState K) (e : Env K) (result : ℕ)
    (links : List String) :
    (s.measured = 2 → collapseInvariant (qmeasure coin now q s e).2.1) ∧
    amps (decohereTick coin now s e).1 = amps s ∧
    (∀ name, (propagateToLinks result links e name).map amps = (e name).map amps) := by
  refine ⟨fun hm => ?_, ?_, fun name => ?_⟩
  · have hne : ¬s.measured ≠ 2 := by simp [hm]
    unfold qmeasure
    rw [if_neg hne]
    cases hc : coin (normSq s.beta_real s.beta_imag) <;>
      simp [bernoulliSample, collapseAmps, updateTimestamp, collapseInvariant, hc]
  · unfold decohereTick
    split <;> rfl
  · rw [propagate_char]
    by_cases hn : name ∈ links
    · rw [if_pos hn]
      cases e name <;> rfl
    · rw [if_neg hn]

/-- Witness for `collapsedAmplitudes_amended`: `measure` on a concrete
normalized superposed record (`p1 = 16/25`, so the drawn outcome 0 is
realizable) yields a record satisfying the invariant. -/
theorem collapsedAmplitudes_amended_witness :
    collapseInvariant (qmeasure (coin0 ℚ) 3 qHandle sBell (env0 ℚ)).2.1 :=
  (collapsedAmplitudes_amended (coin0 ℚ) 3 qHandle sBell (env0 ℚ) 0 []).1 rfl

/-- Name truncation by `strncpy` is the identity on names of at most 63
characters. -/
theorem truncName_of_short (p : String) (hp : p.length ≤ 63) : truncName p = p := by
  unfold truncName
  cases p with
  | mk data =>
    simp only [String.length] at hp
    simp [List.take_of_length_le hp]

/-- In a duplicate-free list, the element at index `i` does not occur in
the list with index `i` erased. -/
theorem nodup_get_not_mem_eraseIdx {α : Type} :
    ∀ (l : List α) (i : ℕ) (h : i < l.length),
      l.Nodup → l.get ⟨i, h⟩ ∉ l.eraseIdx i := by
  intro l
  induction l with
  | nil => intro i h; simp at h
  | cons a t ih =>
    intro i h hnd
    cases i with
    | zero => simpa using (List.nodup_cons.mp hnd).1
    | succ j =>
      intro hmem
      simp only [List.eraseIdx, List.get_cons_succ, List.mem_cons] at hmem
      rcases hmem with h1 | h2
      · exact (List.nodup_cons.mp hnd).1 (h1 ▸ List.get_mem t _ _)
      · exact ih j (by simpa using h) (List.nodup_cons.mp hnd).2 h2

/-- C6 counterexample: `entangle` does not filter the register's own name
out of the supplied peer list, so a register can end up linked to itself. -/
theorem entangle_self_counterexample :
    qHandle.shm_name ∈ (entangle [qHandle.shm_name] sSupQ).links := by
  decide

/-- C6 amended: the links list stored by `entangle` always has length at
most 4, the superposition initializer clears the links, and `formGHZGroup`
on an accepted group of registers with pairwise-distinct names of at most
63 characters links no member to itself; `entangle` itself, however,
stores the supplied names verbatim (truncated to 63 characters) including
the register's own name when it appears in the input. -/
theorem links_wellformed_amended {K : Type} [Field K] (sqrt2 : K) (now : ℕ)
    (q : Qubit) (peers : List String) (s : QubitState K)
    (qs : List (Qubit × QubitState K))
    (h2 : 2 ≤ qs.length) (h5 : qs.length ≤ 5)
    (hnd : (qs.map (fun r => r.1.shm_name)).Nodup)
    (hlen : ∀ nm ∈ qs.map (fun r => r.1.shm_name), nm.length ≤ 63) :
    (entangle peers s).links.length ≤ 4 ∧
    (initSuperposition sqrt2 now q s).links = [] ∧
    (∀ p ∈ formGHZGroup sqrt2 now qs,
       p.2.links.length ≤ 4 ∧ p.1.shm_name ∉ p.2.links) := by
  refine ⟨?_, rfl, ?_⟩
  · unfold entangle
    simp only [List.length_map, List.length_take]
    exact min_le_left _ _
  · intro p hp
    unfold formGHZGroup at hp
    rw [if_neg (by omega)] at hp
    simp only [List.mem_map] at hp
    obtain ⟨⟨i, a⟩, hin, hpe⟩ := hp
    rw [List.mk_mem_enum_iff_getElem?] at hin
    obtain ⟨hi, hget⟩ := List.getElem?_eq_some.mp hin
    subst hpe
    constructor
    · simp only [entangle, setState, updateTimestamp, List.length_map,
        List.length_take]
      exact min_le_left _ _
    · intro hmem
      simp only [entangle, setState, updateTimestamp, List.mem_map] at hmem
      obtain ⟨x, hx, htx⟩ := hmem
      have hx1 : x ∈ (qs.map (fun r => r.1.shm_name)).eraseIdx i :=
        List.mem_of_mem_take hx
      have hx2 : x ∈ qs.map (fun r => r.1.shm_name) :=
        List.eraseIdx_subset _ _ hx1
      rw [truncName_of_short x (hlen x hx2)] at htx
      subst htx
      have hilt : i < (qs.map (fun r => r.1.shm_name)).length := by
        simpa using hi
      have hgn : (qs.map (fun r => r.1.shm_name)).get ⟨i, hilt⟩ = a.1.shm_name := by
        simp [List.getElem_map, hget]
      rw [← hgn] at hx1
      exact nodup_get_not_mem_eraseIdx _ i hilt hnd hx1

/-- Witness for `links_wellformed_amended` on a concrete two-member group
with names `"a"` and `"b"`. -/
theorem links_wellformed_amended_witness :
    (entangle ["b"] sSupQ).links.length ≤ 4 ∧
    (initSuperposition (0 : ℚ) 0 qHandle sSupQ).links = [] :=
  ⟨(links_wellformed_amended (0 : ℚ) 0 qHandle ["b"] sSupQ
      [(qHandle, sSupQ), ({ shm_name := "b", task_id := 1, decohere_timeout := 5 },
        sSupQ)] (by decide) (by decide) (by decide) (by decide)).1,
   (links_wellformed_amended (0 : ℚ) 0 qHandle ["b"] sSupQ
      [(qHandle, sSupQ), ({ shm_name := "b", task_id := 1, decohere_timeout := 5 },
        sSupQ)] (by decide) (by decide) (by decide) (by decide)).2.1⟩

/-- One amplitude component of applying the source's H transformation
twice: it returns to its original value when `sqrt2 * sqrt2 = 2`. -/
theorem H_twice_comp {K : Type} [Field K] (sqrt2 : K) (hs : sqrt2 * sqrt2 = 2)
    (h0 : sqrt2 ≠ 0) (a b : K) :
    ((a + b) / sqrt2 + (a - b) / sqrt2) / sqrt2 = a := by
  field_simp
  linear_combination -a * hs

/-- The other amplitude component of applying H twice. -/
theorem H_twice_comp_sub {K : Type} [Field K] (sqrt2 : K) (hs : sqrt2 * sqrt2 = 2)
    (h0 : sqrt2 ≠ 0) (a b : K) :
    ((a + b) / sqrt2 - (a - b) / sqrt2) / sqrt2 = b := by
  field_simp
  linear_combination -b * hs

/-- C9: the gate algebra of `applyGate` on superposed registers — H twice,
X twice and Z twice restore the amplitude tuple, and on the fixed input
`(1,0,0,0)` a single H gives `(1/√2, 0, 1/√2, 0)`, a single X gives
`(0,0,1,0)`, and Z applied to `(0,0,1,0)` gives `(0,0,-1,0)`. -/
theorem gate_algebra {K : Type} [Field K] (sqrt2 : K) (hs : sqrt2 * sqrt2 = 2)
    (h0 : sqrt2 ≠ 0) (q : Qubit) (n1 n2 : ℕ) (s : QubitState K)
    (hm : s.measured = 2) :
    amps (applyGate sqrt2 'H' n2 q (applyGate sqrt2 'H' n1 q s)) = amps s ∧
    amps (applyGate sqrt2 'X' n2 q (applyGate sqrt2 'X' n1 q s)) = amps s ∧
    amps (applyGate sqrt2 'Z' n2 q (applyGate sqrt2 'Z' n1 q s)) = amps s ∧
    amps (applyGate sqrt2 'H' n1 q (sPure0 K)) = (1 / sqrt2, 0, 1 / sqrt2, 0) ∧
    amps (applyGate sqrt2 'X' n1 q (sPure0 K)) = (0, 0, 1, 0) ∧
    amps (applyGate sqrt2 'Z' n1 q (sPure1 K)) = (0, 0, -1, 0) := by
  refine ⟨?_, ?_, ?_, ?_, ?_, ?_⟩
  · simp only [applyGate, gateTransform, updateTimestamp, amps, hm]
    norm_num
    exact ⟨H_twice_comp sqrt2 hs h0 _ _, H_twice_comp sqrt2 hs h0 _ _,
      H_twice_comp_sub sqrt2 hs h0 _ _, H_twice_comp_sub sqrt2 hs h0 _ _⟩
  · simp [applyGate, gateTransform, updateTimestamp, amps, hm]
  · simp [applyGate, gateTransform, updateTimestamp, amps, hm]
  · simp [applyGate, gateTransform, updateTimestamp, amps, sPure0]
  · simp [applyGate, gateTransform, updateTimestamp, amps, sPure0]
  · simp [applyGate, gateTransform, updateTimestamp, amps, sPure1]

/-- Witness for `gate_algebra` over ℝ with `sqrt2 := Real.sqrt 2` at the
concrete superposed record `(1,0,0,0)`. -/
theorem gate_algebra_witness :
    amps (applyGate (Real.sqrt 2) 'X' 1 qHandle
        (applyGate (Real.sqrt 2) 'X' 0 qHandle (sPure0 ℝ))) = amps (sPure0 ℝ) ∧
    amps (applyGate (Real.sqrt 2) 'H' 0 qHandle (sPure0 ℝ)) =
      (1 / Real.sqrt 2, 0, 1 / Real.sqrt 2, 0) :=
  ⟨(gate_algebra (Real.sqrt 2) (Real.mul_self_sqrt (by norm_num))
      (ne_of_gt (Real.sqrt_pos.mpr (by norm_num))) qHandle 0 1 (sPure0 ℝ) rfl).2.1,
   (gate_algebra (Real.sqrt 2) (Real.mul_self_sqrt (by norm_num))
      (ne_of_gt (Real.sqrt_pos.mpr (by norm_num))) qHandle 0 1 (sPure0 ℝ) rfl).2.2.2.1⟩

end Entangld
